import Mathlib

/-!
Verification of the Apple Pixlet decoder (libavcodec/pixlet.c).

The definitions below are a shallow embedding of the decoder source.
Machine integers are modelled as Int or Nat with explicit truncation where
the C code truncates: int32 assignments through wrap32, uint32 values
through reduction mod 2 to the 32, int16 stores through wrap16.  The
int64_t adaptation state of the entropy decoders is modelled as an
unbounded Int (signed int64 overflow is undefined behaviour in C).
Bitstreams are infinite MSB-first bit suppliers, matching the checked
bit reader on inputs where no read passes the buffer end.
-/

namespace Pixlet

/-- Truncation of an integer to a signed 32-bit value (twos-complement
wrap-around, as happens on assignment to a C int). -/
def wrap32 (x : Int) : Int := (x + 2^31) % 2^32 - 2^31

/-- Truncation of an integer to a signed 16-bit value (twos-complement
wrap-around, as happens on a store to an int16_t). -/
def wrap16 (x : Int) : Int := (x + 2^15) % 2^16 - 2^15

/-- Conversion of an integer to an unsigned 32-bit value, as happens when an
int64_t argument is passed to a function taking an unsigned int. -/
def u32 (x : Int) : Nat := (x % 2^32).toNat

/-- Arithmetic right shift of a signed integer by k: floor division by 2^k.
Lean division on Int is euclidean division, which agrees with floor division
for a positive divisor. -/
def sar (x : Int) (k : Nat) : Int := x / 2^k

/-- Number of binary digits of n, with explicit fuel so that the kernel can
evaluate it (blen f n is the bit length of n whenever n is below 2^f). -/
def blen : Nat → Nat → Nat
  | 0, _ => 0
  | f+1, n => if n = 0 then 0 else blen f (n / 2) + 1

/-- ff_clz of the argument taken as an unsigned 32-bit value: the count of
leading zero bits in its 32-bit representation.  The source guards every use
against a zero argument except through the convention clz32 0 = 32, which is
the convention the source spells out as (state ? ff_clz(state) : 32). -/
def clz32 (n : Nat) : Nat := 32 - blen 32 (n % 2^32)

/-- Twos-complement bitwise AND of an integer with 1: its low bit, which for
every integer (negative ones included) equals the residue mod 2. -/
def landOne (x : Int) : Int := x % 2

/-- Twos-complement bitwise OR of an integer with 1: sets the low bit. -/
def lorOne (x : Int) : Int := if x % 2 = 0 then x + 1 else x

/-- Twos-complement XOR of t with a mask m known to be 0 or -1; XOR with -1
is bitwise negation, which on integers is t mapped to -t - 1. -/
def xorMask01 (t m : Int) : Int := if m = 0 then t else -t - 1

/-- Value of (1 << p) - 1 for a C int p as used by the source in mask
positions.  A non-positive p makes 1 << p undefined behaviour in C; the
model takes the mask to be 0 there (p.toNat = 0 gives 2^0 - 1 = 0). -/
def maskOf (p : Int) : Nat := 2 ^ p.toNat - 1

/-- av_mod_uintp2 a p, that is a & ((1 << p) - 1).  A non-positive p is
undefined behaviour in C; the model returns 0 there. -/
def mod_uintp2 (a : Nat) (p : Int) : Nat := if 0 < p then a % 2 ^ p.toNat else 0

/-- The branchless clamp used by the value phase of read_high_coeffs:
14 + ((((uint64_t)(value - 14)) >> 32) & (value - 14)), computed in uint64
arithmetic and truncated to a C int on assignment to pfx.  For
value in [-1, 63] this equals min value 14 (proved below). -/
def minBranchless14 (v : Int) : Int :=
  wrap32 (14 + (((((v - 14) % 2^64).toNat >>> 32) &&& ((v - 14) % 2^64).toNat : Nat) : Int))

/-! ### Bit reader -/

/-- An MSB-first bitstream: an infinite supply of bits and a read position. -/
structure BitStream where
  bits : Nat → Bool
  pos : Nat

/-- show_bits: peek n bits MSB-first without advancing. -/
def showBits (s : BitStream) (n : Nat) : Nat :=
  (List.range n).foldl (fun acc k => 2 * acc + (if s.bits (s.pos + k) then 1 else 0)) 0

/-- skip_bits: advance by n bits. -/
def skipBits (s : BitStream) (n : Nat) : BitStream := ⟨s.bits, s.pos + n⟩

/-- get_bits: read n bits MSB-first and advance. -/
def getBits (s : BitStream) (n : Nat) : Nat × BitStream := (showBits s n, skipBits s n)

/-- show_bits with a C int width; a non-positive width is undefined behaviour
in C, modelled as reading zero bits (Int.toNat clamps at zero). -/
def showBitsI (s : BitStream) (n : Int) : Nat := showBits s n.toNat

/-- skip_bits with a C int width; a negative width is undefined behaviour in
C, modelled as skipping zero bits. -/
def skipBitsI (s : BitStream) (n : Int) : BitStream := skipBits s n.toNat

/-- get_unary(gb, 0, limit): count set bits until a zero bit (which is
consumed) or until limit bits have been read; returns the count, which
equals limit exactly when no zero bit was found. -/
def getUnary : Nat → BitStream → Nat × BitStream
  | 0, s => (0, s)
  | limit+1, s =>
    if s.bits s.pos then
      (let r := getUnary limit (skipBits s 1); (r.1 + 1, r.2))
    else (0, skipBits s 1)

/-! ### read_low_coeffs -/

/-- The mutable state of the read_low_coeffs loop: the bit reader, the
int64_t adaptation state, and the int flag. -/
structure LowSt where
  bs : BitStream
  state : Int
  flag : Int

/-- Result of one value phase of read_low_coeffs.  The escape value is a
local of the source; it is exposed here so that the specification of the
emitted sample can refer to it. -/
structure LowVal where
  escape : Int
  emitted : Int
  next : LowSt

/-- The escape computation of the value phase of read_low_coeffs (source
lines 131-145): nbits = FFMIN(ff_clz((state >> 8) + 3) ^ 0x1F, 14); a
unary count with limit 8 selects between the in-line coding and the
16-bit escape read. -/
def lowEscape (st : LowSt) : Int × BitStream :=
  let nbits := min (clz32 (u32 (sar st.state 8 + 3)) ^^^ 31) 14
  let u := getUnary 8 st.bs
  if u.1 < 8 then
    (let value := showBits u.2 nbits
     if value ≤ 1 then
       (((2 ^ nbits - 1) * u.1 : Nat), skipBits u.2 (nbits - 1))
     else
       ((value : Int) + ((2 ^ nbits - 1) * u.1 : Nat) - 1, skipBits u.2 nbits))
  else
    (let g := getBits u.2 16; ((g.1 : Int), g.2))

/-- One value phase of read_low_coeffs (source lines 131-155): the sample
-((escape + flag) & 1) | 1 times ((escape + flag + 1) >> 1) is emitted; the
state becomes 120 * (escape + flag) + state - (120 * state >> 8) and flag is
reset to 0. -/
def lowValue (st : LowSt) : LowVal :=
  let esc := lowEscape st
  { escape := esc.1
    emitted := lorOne (-(landOne (esc.1 + st.flag))) * sar (esc.1 + st.flag + 1) 1
    next := { bs := esc.2
              state := 120 * (esc.1 + st.flag) + st.state - sar (120 * st.state) 8
              flag := 0 } }

/-- The run-phase prefix width ((state + 8) >> 5) + (state ? ff_clz(state)
: 32) - 24, shared by read_low_coeffs and read_high_coeffs. -/
def runNbits (state : Int) : Int :=
  sar (state + 8) 5 + (if state ≠ 0 then (clz32 (u32 state) : Int) else 32) - 24

/-- One run phase of read_low_coeffs (source lines 160-189), up to but not
including the overrun check against size, which the enclosing loop performs:
returns the run length and the state with state = 0 and
flag = (rlen < 0xFFFF). -/
def lowRun (st : LowSt) : Nat × LowSt :=
  let nbits := runNbits st.state
  let escape := mod_uintp2 16383 nbits
  let u := getUnary 8 st.bs
  let r : Nat × BitStream :=
    if u.1 > 7 then getBits u.2 16
    else
      let value := showBitsI u.2 nbits
      if value > 1 then (value + escape * u.1 - 1, skipBitsI u.2 nbits)
      else (escape * u.1, skipBitsI u.2 (nbits - 1))
  (r.1, { bs := r.2, state := 0, flag := if r.1 < 0xFFFF then 1 else 0 })

/-- The while loop of read_low_coeffs.  The first component lists the
emitted samples in emission order (the destination layout bookkeeping of
j, width and stride only distributes these samples in memory), the second
lists the adaptation state at each entry into the run phase, and the third
is the final loop state, with none meaning AVERROR_INVALIDDATA.  fuel is a
structural bound on the iteration count; remaining counts the samples still
to emit, so fuel = remaining at the top level makes fuel exhaustion
unreachable, each iteration emitting at least one sample. -/
def read_low_loop : Nat → Nat → LowSt → List Int × List Int × Option LowSt
  | _, 0, st => ([], [], some st)
  | 0, _+1, _ => ([], [], none)
  | fuel+1, rem+1, st =>
    let v := lowValue st
    if 255 < v.next.state * 4 ∨ rem = 0 then
      (let r := read_low_loop fuel rem v.next
       (v.emitted :: r.1, r.2.1, r.2.2))
    else
      (let run := lowRun v.next
       if rem < run.1 then ([v.emitted], [v.next.state], none)
       else
         let r := read_low_loop fuel (rem - run.1) run.2
         (v.emitted :: (List.replicate run.1 0 ++ r.1),
          v.next.state :: r.2.1, r.2.2))

/-- read_low_coeffs: the loop started with state = 3 and flag = 0.  The
final byte alignment and consumed byte count are not modelled. -/
def read_low_coeffs (bs : BitStream) (size : Nat) :
    List Int × List Int × Option LowSt :=
  read_low_loop size size ⟨bs, 3, 0⟩

/-! ### read_high_coeffs -/

/-- FFABS(a) = (a >= 0 ? a : -a) in int arithmetic; negating INT32_MIN
wraps. -/
def ffabs (a : Int) : Int := wrap32 (if a < 0 then -a else a)

/-- The magnitude parameter read_highpass passes to read_high_coeffs:
(b >= FFABS(a)) ? b : a. -/
def aprime (a b : Int) : Int := if ffabs a ≤ b then b else a

/-- The prefix bit count derivation at the top of read_high_coeffs (source
lines 209-215), with none meaning AVERROR_INVALIDDATA.  The C expression
(a >= 0) + (a ^ (a >> 31)) - (a >> 31) is embedded literally: a >> 31 is 0
for a non-negative int32 and -1 for a negative one, so the XOR is covered by
xorMask01; the int result wraps through wrap32. -/
def highNbits (a : Int) : Option Nat :=
  let e := wrap32 ((if 0 ≤ a then (1 : Int) else 0) + xorMask01 a (sar a 31) - sar a 31)
  if e ≠ 1 then
    (let nb := 33 - clz32 (u32 (e - 1))
     if nb > 16 then none else some nb)
  else some 1

/-- length = 25 - nbits. -/
def highLength (a : Int) : Option Nat := (highNbits a).map (fun n => 25 - n)

/-- Closed form of the prefix bit count of read_high_coeffs, for comparison
with the spec: nbits = 1 exactly for the magnitude parameters 0 and -1; for
a positive parameter a it is 33 - clz32(a), and for a ≤ -2 it is
33 - clz32(|a| - 1); failure (none) exactly when the count exceeds 16. -/
def highNbitsSpec (a : Int) : Option Nat :=
  if a = 0 ∨ a = -1 then some 1
  else
    (let u : Nat := if 0 ≤ a then a.toNat else a.natAbs - 1
     if 16 < 33 - clz32 u then none else some (33 - clz32 u))

/-- The mutable state of the read_high_coeffs loop. -/
structure HCSt where
  bs : BitStream
  state : Int
  flag : Int

/-- The local value of the value phase of read_high_coeffs when the branch
testing state >> 8 against -3 is taken, that is
ff_clz((state >> 8) + 3) ^ 0x1F, and -1 otherwise. -/
def hcV (s : Int) : Int :=
  if sar s 8 ≠ -3 then ((clz32 (u32 (sar s 8 + 3)) ^^^ 31 : Nat) : Int) else -1

/-- Result of one value phase of read_high_coeffs.  pfx is the prefix width
the source computes in the non-escape branch (none when the escape branch
cnt1 >= length was taken); it is exposed for the safety analysis. -/
structure HCVal where
  pfx : Option Int
  emitted : Int
  next : HCSt

/-- The prefix-reading step of the value phase of read_high_coeffs (source
lines 226-240): a unary count with limit length selects between the escape
read of nbits bits (cnt1 >= length) and the non-escape branch, whose prefix
width pfx (returned in the first component for the safety analysis) scales
and augments cnt1.  cnt1 is a C unsigned, so its updates are reduced
mod 2^32. -/
def highStep (nbits length : Nat) (v : Int) (bs : BitStream) :
    Option Int × Nat × BitStream :=
  let u := getUnary length bs
  if length ≤ u.1 then
    (let g := getBits u.2 nbits; (none, g.1, g.2))
  else
    (let pfx := minBranchless14 v
     let cnt1 := (u.1 * maskOf pfx) % 2^32
     let shbits := showBitsI u.2 pfx
     if shbits ≤ 1 then (some pfx, cnt1, skipBitsI u.2 (pfx - 1))
     else (some pfx, (cnt1 + shbits - 1) % 2^32, skipBitsI u.2 pfx))

/-- The sample computation of the value phase of read_high_coeffs (source
lines 245-251): zero when flag + cnt1 is zero, otherwise
xflag + (tmp ^ -xflag) with xflag reduced to its low bit and
tmp = c * ((yflag + 1) >> 1) + (c >> 1); the int result wraps. -/
def highEmit (c xflag : Int) : Int :=
  if xflag = 0 then 0
  else
    (let xf := landOne xflag
     let tmp := c * sar (xflag + 1) 1 + sar c 1
     wrap32 (xf + xorMask01 tmp (-xf)))

/-- One value phase of read_high_coeffs (source lines 220-261).  xflag is a
C int, so it wraps; the int64 products d * yflag (an int by int product in
C, hence wrapped) and d * state feed the state update, and flag is reset
to 0. -/
def highValue (c d : Int) (nbits length : Nat) (st : HCSt) : HCVal :=
  let step := highStep nbits length (hcV st.state) st.bs
  let xflag := wrap32 (st.flag + step.2.1)
  { pfx := step.1
    emitted := highEmit c xflag
    next := { bs := step.2.2
              state := st.state + wrap32 (d * xflag) - sar (d * st.state) 8
              flag := 0 } }

/-- One run phase of read_high_coeffs (source lines 266-300), up to but not
including the overrun check against size: none models the rlen > 0xFFFF
part of the AVERROR_INVALIDDATA exit; otherwise the run length and the
state with state = 0 and flag = (rlen < 0xFFFF) are returned. -/
def highRun (st : HCSt) : Option (Nat × HCSt) :=
  let pfx := runNbits st.state
  let escape := mod_uintp2 16383 pfx
  let u := getUnary 8 st.bs
  let r : Nat × BitStream :=
    if u.1 < 8 then
      (let value := showBitsI u.2 pfx
       if value > 1 then (value + escape * u.1 - 1, skipBitsI u.2 pfx)
       else (escape * u.1, skipBitsI u.2 (pfx - 1)))
    else
      (let g1 := getBits u.2 1
       let g := if g1.1 = 1 then getBits g1.2 16 else getBits g1.2 8
       (g.1 + 8 * escape, g.2))
  if 0xFFFF < r.1 then none
  else some (r.1, { bs := r.2, state := 0, flag := if r.1 < 0xFFFF then 1 else 0 })

/-- The while loop of read_high_coeffs.  The first component lists the
emitted samples in order, the second records, for every value phase, the
adaptation state at its start together with the prefix width pfx when the
non-escape branch was taken, and the third is the final state with none
meaning AVERROR_INVALIDDATA.  fuel is a structural iteration bound as in
read_low_loop. -/
def read_high_loop (c d : Int) (nbits length : Nat) :
    Nat → Nat → HCSt → List Int × List (Int × Option Int) × Option HCSt
  | _, 0, st => ([], [], some st)
  | 0, _+1, _ => ([], [], none)
  | fuel+1, rem+1, st =>
    let v := highValue c d nbits length st
    if 255 < v.next.state * 4 ∨ rem = 0 then
      (let r := read_high_loop c d nbits length fuel rem v.next
       (v.emitted :: r.1, (st.state, v.pfx) :: r.2.1, r.2.2))
    else
      match highRun v.next with
      | none => ([v.emitted], [(st.state, v.pfx)], none)
      | some run =>
        if rem < run.1 then ([v.emitted], [(st.state, v.pfx)], none)
        else
          (let r := read_high_loop c d nbits length fuel (rem - run.1) run.2
           (v.emitted :: (List.replicate run.1 0 ++ r.1),
            (st.state, v.pfx) :: r.2.1, r.2.2))

/-- read_high_coeffs: derive nbits from the magnitude parameter (none
meaning AVERROR_INVALIDDATA), set length = 25 - nbits, and run the loop
with state = 3 and flag = 0. -/
def read_high_coeffs (c a d : Int) (size : Nat) (bs : BitStream) :
    Option (List Int × List (Int × Option Int) × Option HCSt) :=
  (highNbits a).map
    (fun nbits => read_high_loop c d nbits (25 - nbits) size size ⟨bs, 3, 0⟩)

/-- The value-phase trace of a read_high_coeffs call (empty when the nbits
derivation already failed). -/
def highTrace (r : Option (List Int × List (Int × Option Int) × Option HCSt)) :
    List (Int × Option Int) :=
  r.elim [] (fun x => x.2.1)

/-- The sample output of a read_high_coeffs call. -/
def highOut (r : Option (List Int × List (Int × Option Int) × Option HCSt)) :
    Option (List Int) :=
  r.map (fun x => x.1)

/-! ### filter: boundary extension of the 1-D inverse wavelet scratch -/

/-- The scratch buffer of filter after the two memcpy calls (source lines
370-375): low = tmp + 4 holds dest[0 .. hsize-1] at positions 4 .. hsize+3,
high = tmp + hsize + 12 holds dest[hsize .. 2*hsize-1] at positions
hsize+12 .. 2*hsize+11 (each memcpy moves size bytes, that is hsize int16
samples); every other position keeps the previous scratch contents g. -/
def filterScratchInit (dest : Nat → Int) (hsize : Nat) (g : Int → Int) :
    Int → Int := fun z =>
  if 4 ≤ z ∧ z < 4 + (hsize : Int) then dest (z - 4).toNat
  else if (hsize : Int) + 12 ≤ z ∧ z < 2 * (hsize : Int) + 12 then dest (z - 12).toNat
  else g z

/-- One scratch assignment tmp[dst] := tmp[src]. -/
def wr (t : Int → Int) (dst src : Int) : Int → Int := Function.update t dst (t src)

/-- The boundary-extension loop of filter (source lines 377-386), with the
four iterations (i, j) = (4,2), (3,3), (2,4), (1,5) unrolled and the moving
cursors ll, lh, hl, hh inlined; each iteration performs its four
assignments in source order.  Positions are relative to tmp; low is
tmp + 4 and high is tmp + hsize + 12. -/
def filterExtend (dest : Nat → Int) (hsize : Nat) (g : Int → Int) : Int → Int :=
  let h : Int := hsize
  let t0 := filterScratchInit dest hsize g
  let t1 := wr t0 (4 + -1) (4 + 1)
  let t2 := wr t1 (4 + h) (4 + h - 1)
  let t3 := wr t2 (h + 12 + -1) (h + 12 + 0)
  let t4 := wr t3 (h + 12 + h) (h + 12 + h - 2)
  let t5 := wr t4 (4 + -2) (4 + 2)
  let t6 := wr t5 (4 + h + 1) (4 + h - 2)
  let t7 := wr t6 (h + 12 + -2) (h + 12 + 1)
  let t8 := wr t7 (h + 12 + h + 1) (h + 12 + h - 3)
  let t9 := wr t8 (4 + -3) (4 + 3)
  let t10 := wr t9 (4 + h + 2) (4 + h - 3)
  let t11 := wr t10 (h + 12 + -3) (h + 12 + 2)
  let t12 := wr t11 (h + 12 + h + 2) (h + 12 + h - 4)
  let t13 := wr t12 (4 + -4) (4 + 4)
  let t14 := wr t13 (4 + h + 3) (4 + h - 4)
  let t15 := wr t14 (h + 12 + -4) (h + 12 + 3)
  let t16 := wr t15 (h + 12 + h + 3) (h + 12 + h - 5)
  t16

/-- The low-half view of the extended scratch: low[z] = tmp[4 + z]. -/
def lowExt (dest : Nat → Int) (hsize : Nat) (g : Int → Int) (z : Int) : Int :=
  filterExtend dest hsize g (4 + z)

/-- The high-half view of the extended scratch:
high[z] = tmp[hsize + 12 + z]. -/
def highExt (dest : Nat → Int) (hsize : Nat) (g : Int → Int) (z : Int) : Int :=
  filterExtend dest hsize g ((hsize : Int) + 12 + z)

/-! ### lowpass_prediction -/

/-- Inner loop of lowpass_prediction over one row (source lines 354-359),
fuel-based, j starting at 1: val = pred[j] + dst[j] stored as int16 into
both dst[j] and pred[j] (next points at dst + j + 1, so next[-1] is
dst[j]), then dst[j] += dst[j-1] as an int16 store. -/
def lpInner : Nat → Nat → (Nat → Int) → (Nat → Int) → (Nat → Int) × (Nat → Int)
  | 0, _, pred, dst => (pred, dst)
  | f+1, j, pred, dst =>
    let val := wrap16 (pred j + dst j)
    let dst1 := Function.update dst j val
    let pred1 := Function.update pred j val
    let dst2 := Function.update dst1 j (wrap16 (dst1 j + dst1 (j - 1)))
    lpInner f (j+1) pred1 dst2

/-- One row of lowpass_prediction (source lines 350-359): the j = 0 column
is handled first, then the inner loop covers j = 1 .. width-1. -/
def lpRow (width : Nat) (pred dst : Nat → Int) : (Nat → Int) × (Nat → Int) :=
  let val := wrap16 (pred 0 + dst 0)
  let dst1 := Function.update dst 0 val
  let pred1 := Function.update pred 0 val
  lpInner (width - 1) 1 pred1 dst1

/-- Outer loop of lowpass_prediction over rows i, i+1, ...; the image is a
function from (row, column); rows are addressed directly, which matches the
source whenever stride ≥ width (so that rows do not alias). -/
def lpRows (width : Nat) : Nat → Nat → (Nat → Int) → (Nat → Nat → Int) → Nat → Nat → Int
  | 0, _, _, dst => dst
  | f+1, i, pred, dst =>
    let r := lpRow width pred (dst i)
    lpRows width f (i+1) r.1 (Function.update dst i r.2)

/-- lowpass_prediction (source lines 342-362): pred is memset to 0, then
height rows are processed in place. -/
def lowpass_prediction (dst : Nat → Nat → Int) (width height : Nat) :
    Nat → Nat → Int :=
  lpRows width height 0 (fun _ => 0) dst

/-! ### postprocess_chroma and the frame tail -/

/-- Per-sample map of postprocess_chroma (source line 486): the int16
sample s becomes the uint16 value ((add + s) << shift) with
add = 1 << (depth - 1) and shift = 16 - depth, truncated to 16 bits on the
store to the uint16_t destination. -/
def chromaSample (depth : Nat) (s : Int) : Nat :=
  (((2 ^ (depth - 1) + s) * 2 ^ (16 - depth)) % 2^16).toNat

/-- The uint16 bit pattern of an int16 sample: reinterpretation of buffer
contents the decoder does not touch. -/
def toU16 (s : Int) : Nat := (s % 2^16).toNat

/-- postprocess_chroma on one chroma plane viewed as (row, column): samples
inside the w by h rectangle are rewritten through chromaSample in place
(each destination uint16 aliases the source int16 and is read before it is
written); positions outside keep their bit pattern. -/
def postprocess_chroma_plane (depth w h : Nat) (p : Nat → Nat → Int) :
    Nat → Nat → Nat := fun j i =>
  if j < h ∧ i < w then chromaSample depth (p j i) else toU16 (p j i)

/-- The three int16 plane buffers of the output frame. -/
structure Planes where
  p0 : Nat → Nat → Int
  p1 : Nat → Nat → Int
  p2 : Nat → Nat → Int

/-- The plane loop of pixlet_decode_frame (source lines 628-634): planes
are decoded in order 0, 1, 2 by decode_plane, and the loop breaks after
plane 0 when AV_CODEC_FLAG_GRAY is set.  decodePlane abstracts
decode_plane, whose internals the grayscale claim does not depend on. -/
def planeLoop (gray : Bool) (decodePlane : Fin 3 → Planes → Planes)
    (fr : Planes) : Planes :=
  if gray then decodePlane 0 fr
  else decodePlane 2 (decodePlane 1 (decodePlane 0 fr))

/-- The chroma output of pixlet_decode_frame (source lines 628-637): after
the plane loop, postprocess_chroma runs unconditionally over planes 1 and 2
with dimensions (w >> 1, h >> 1), whether or not the grayscale flag
shortened the loop. -/
def frameChroma (gray : Bool) (decodePlane : Fin 3 → Planes → Planes)
    (fr : Planes) (depth w2 h2 : Nat) :
    (Nat → Nat → Nat) × (Nat → Nat → Nat) :=
  let dec := planeLoop gray decodePlane fr
  (postprocess_chroma_plane depth w2 h2 dec.p1,
   postprocess_chroma_plane depth w2 h2 dec.p2)

/-! ### pixlet_decode_frame header validation -/

/-- A bounded byte reader: the packet bytes and a position. -/
structure ByteCtx where
  data : List Nat
  pos : Nat

/-- bytestream2_get_bytes_left. -/
def bytesLeft (g : ByteCtx) : Nat := g.data.length - g.pos

/-- The byte k positions past the cursor (never read out of bounds by the
operations below). -/
def byteAt (g : ByteCtx) (k : Nat) : Nat := g.data.getD (g.pos + k) 0

/-- bytestream2_get_be32: read 4 bytes big-endian; with fewer than 4 bytes
left it returns 0 and moves the cursor to the end. -/
def getBE32 (g : ByteCtx) : Nat × ByteCtx :=
  if 4 ≤ bytesLeft g then
    (byteAt g 0 * 2^24 + byteAt g 1 * 2^16 + byteAt g 2 * 2^8 + byteAt g 3,
     ⟨g.data, g.pos + 4⟩)
  else (0, ⟨g.data, g.data.length⟩)

/-- bytestream2_get_le32. -/
def getLE32 (g : ByteCtx) : Nat × ByteCtx :=
  if 4 ≤ bytesLeft g then
    (byteAt g 0 + byteAt g 1 * 2^8 + byteAt g 2 * 2^16 + byteAt g 3 * 2^24,
     ⟨g.data, g.pos + 4⟩)
  else (0, ⟨g.data, g.data.length⟩)

/-- bytestream2_skip: advance, clamped at the end of the buffer. -/
def skipBytes (g : ByteCtx) (n : Nat) : ByteCtx :=
  ⟨g.data, min (g.pos + n) g.data.length⟩

/-- The validated fields of a pixlet packet header. -/
structure FrameHeader where
  pktsize : Nat
  version : Nat
  width : Nat
  height : Nat
  levels : Nat
  depth : Nat

/-- The header validation of pixlet_decode_frame (source lines 566-596),
everything the frame decoder checks before any plane is decoded: the
packet size must exceed 44 and fit in the buffer, the big-endian field at
offset 12 must equal 1, the wavelet-levels field must equal NB_LEVELS = 4
and the sample depth must lie in [8, 15]; error () is
AVERROR_INVALIDDATA.  A version other than 1 only produces a diagnostic. -/
def pixlet_parse_header (data : List Nat) : Except Unit FrameHeader :=
  let r1 := getBE32 ⟨data, 0⟩
  if r1.1 ≤ 44 ∨ bytesLeft r1.2 < r1.1 - 4 then .error ()
  else
    let r2 := getLE32 r1.2
    let r4 := getBE32 (skipBytes r2.2 4)
    if r4.1 ≠ 1 then .error ()
    else
      let r6 := getBE32 (skipBytes r4.2 4)
      let r7 := getBE32 r6.2
      let r8 := getBE32 r7.2
      if r8.1 ≠ 4 then .error ()
      else
        let r9 := getBE32 r8.2
        if r9.1 < 8 ∨ 15 < r9.1 then .error ()
        else .ok ⟨r1.1, r2.1, r6.1, r7.1, r8.1, r9.1⟩

/-- The big-endian 32-bit field of a packet at byte offset p (the header
fields sit at fixed offsets: size 0, version 4, the constant-1 field 12,
width 20, height 24, levels 28, depth 32). -/
def be32At (data : List Nat) (p : Nat) : Nat := (getBE32 ⟨data, p⟩).1

/-! ### Concrete inputs -/

/-- The all-zero bitstream. -/
def zeroBS : BitStream := ⟨fun _ => false, 0⟩

/-- The 16-bit big-endian encoding of y as a bit list. -/
def bits16 (y : Nat) : List Bool :=
  (List.range 16).map (fun k => (y / 2 ^ (15 - k)) % 2 == 1)

/-- The escape-path payload values of the adversarial high-band stream used
against claim C1: each value phase reads 9 one bits (hitting the unary
limit length = 25 - 16 = 9) and then one of these values as a 16-bit
field. -/
def c1ys : List Nat := [0, 0, 0, 0, 9727, 32754, 32825, 63437]

/-- The adversarial bit list: eight escape-path value phases followed by a
single zero bit, which makes the ninth value phase take the non-escape
branch. -/
def c1bits : List Bool :=
  (c1ys.map (fun y => List.replicate 9 true ++ bits16 y)).flatten ++ [false]

/-- The adversarial bitstream. -/
def c1stream : BitStream := ⟨fun i => c1bits.getD i false, 0⟩

/-! ## Theorems -/

theorem blen_zero_arg : ∀ f : Nat, blen f 0 = 0 := by
  intro f; cases f <;> rfl

theorem blen_lt_pow : ∀ f n : Nat, n < 2^f → n < 2^(blen f n) := by
  intro f
  induction f with
  | zero => intro n h; simpa [blen] using h
  | succ f ih =>
    intro n h
    by_cases h0 : n = 0
    · simp [blen, h0]
    · have hpow : 2^(f+1) = 2 * 2^f := by ring
      have hlt : n / 2 < 2^f := by omega
      have := ih (n / 2) hlt
      simp only [blen, h0, if_false]
      have hpow2 : 2^(blen f (n / 2) + 1) = 2 * 2^(blen f (n / 2)) := by ring
      omega

theorem pow_blen_le : ∀ f n : Nat, 1 ≤ n → 2^(blen f n - 1) ≤ n := by
  intro f
  induction f with
  | zero => intro n h; simpa [blen] using h
  | succ f ih =>
    intro n h
    have h0 : ¬ n = 0 := by omega
    simp only [blen, h0, if_false, Nat.add_sub_cancel]
    by_cases hb : blen f (n / 2) = 0
    · simpa [hb] using h
    · have hn2 : 1 ≤ n / 2 := by
        by_contra hc
        have : n / 2 = 0 := by omega
        rw [this, blen_zero_arg] at hb
        exact hb rfl
      have hih := ih (n / 2) hn2
      have hsplit : 2^(blen f (n / 2)) = 2 * 2^(blen f (n / 2) - 1) := by
        rw [← pow_succ']; congr 1; omega
      omega

theorem clz32_le_32 (n : Nat) : clz32 n ≤ 32 := by
  simp only [clz32]; omega

theorem clz32_le_30 (n : Nat) (h2 : 2 ≤ n) (h32 : n < 2^32) : clz32 n ≤ 30 := by
  have hm : n % 2^32 = n := Nat.mod_eq_of_lt h32
  have := blen_lt_pow 32 n h32
  simp only [clz32, hm]
  by_contra hc
  have hble : blen 32 n ≤ 1 := by omega
  have : n < 2^1 := lt_of_lt_of_le this (Nat.pow_le_pow_right (by norm_num) hble)
  omega

theorem xor_31 : ∀ c : Nat, c ≤ 32 → (c ^^^ 31 : Nat) = if c ≤ 31 then 31 - c else 63 := by
  decide

theorem wrap16_emod (x : Int) : wrap16 x % 2^16 = x % 2^16 := by
  simp only [wrap16]; omega

theorem wrap16_congr {x y : Int} (h : x % 2^16 = y % 2^16) : wrap16 x = wrap16 y := by
  simp only [wrap16]; omega

/-- minBranchless14 is min v 14 on the argument range [-1, 63] that the
value phase produces. -/
theorem minBranchless14_eq (v : Int) (h1 : -1 ≤ v) (h2 : v ≤ 63) :
    minBranchless14 v = min v 14 := by
  interval_cases v <;> decide

theorem hcV_range (s : Int) : -1 ≤ hcV s ∧ hcV s ≤ 63 := by
  unfold hcV
  split
  · have h1 := clz32_le_32 (u32 (sar s 8 + 3))
    rw [xor_31 _ h1]
    split <;> omega
  · omega

theorem u32_lt (x : Int) : u32 x < 2^32 := by
  simp only [u32]; omega

/-- For a nonnegative state whose 32-bit-truncated (state >> 8) + 3 is not
1, the value-phase v is at least 1 (hence so is pfx = min v 14). -/
theorem hcV_pos (s : Int) (hs : 0 ≤ s) (hne : u32 (sar s 8 + 3) ≠ 1) : 1 ≤ hcV s := by
  have hsar : 0 ≤ sar s 8 := by simp only [sar]; omega
  unfold hcV
  rw [if_pos (by omega)]
  set m := u32 (sar s 8 + 3) with hm
  have hmlt : m < 2^32 := u32_lt _
  rcases Nat.lt_or_ge m 2 with hm2 | hm2
  · have hm0 : m = 0 := by omega
    have : clz32 m = 32 := by simp [clz32, hm0, blen]
    rw [this, xor_31 _ (by omega)]
    norm_num
  · have h30 := clz32_le_30 m hm2 hmlt
    rw [xor_31 _ (by omega), if_pos (by omega)]
    have : clz32 m ≤ 30 := h30
    omega

/-! ### Claim C7: the emission and state update of the low-coefficient
value phase -/

theorem lorOne_landOne (s : Int) : lorOne (-(landOne s)) = if s % 2 = 1 then -1 else 1 := by
  have h : s % 2 = 0 ∨ s % 2 = 1 := by omega
  rcases h with h | h <;> simp [landOne, lorOne, h]

/-- Claim C7: in read_low_coeffs, every value-phase sample emitted equals
sign * ((s + 1) >> 1) with s = escape + flag and sign = -1 exactly when s
is odd; afterwards the state is 120 * (escape + flag) + state -
((120 * state) >> 8) and the flag is reset to 0. -/
theorem low_value_phase_spec (st : LowSt) :
    (lowValue st).emitted =
      (if ((lowValue st).escape + st.flag) % 2 = 1 then (-1 : Int) else 1) *
        (((lowValue st).escape + st.flag + 1) / 2) ∧
    (lowValue st).next.state =
      120 * ((lowValue st).escape + st.flag) + st.state - (120 * st.state) / 2^8 ∧
    (lowValue st).next.flag = 0 := by
  refine ⟨?_, rfl, rfl⟩
  show lorOne (-(landOne ((lowValue st).escape + st.flag))) *
      sar ((lowValue st).escape + st.flag + 1) 1 = _
  rw [lorOne_landOne]
  rfl

/-! ### Claim C10: the non-negative state invariant of read_low_coeffs
and the validity of the run-phase widths -/

theorem lowEscape_nonneg (st : LowSt) : 0 ≤ (lowEscape st).1 := by
  unfold lowEscape
  dsimp only
  split
  · split
    · positivity
    · rename_i hv
      have h1 : ¬ showBits (getUnary 8 st.bs).2
          (min (clz32 (u32 (sar st.state 8 + 3)) ^^^ 31) 14) ≤ 1 := hv
      omega
  · positivity

theorem lowValue_state_nonneg (st : LowSt) (hs : 0 ≤ st.state)
    (hf : st.flag = 0 ∨ st.flag = 1) : 0 ≤ (lowValue st).next.state := by
  have he := lowEscape_nonneg st
  show 0 ≤ 120 * ((lowEscape st).1 + st.flag) + st.state - sar (120 * st.state) 8
  simp only [sar]
  omega

theorem runNbits_range : ∀ s : Int, 0 ≤ s → s ≤ 63 → 3 ≤ runNbits s ∧ runNbits s ≤ 8 := by
  intro s h1 h2
  interval_cases s <;> exact ⟨by decide, by decide⟩

theorem lowRun_flag (st : LowSt) : (lowRun st).2.flag = 0 ∨ (lowRun st).2.flag = 1 := by
  show (if (lowRun st).1 < 0xFFFF then (1 : Int) else 0) = 0 ∨
    (if (lowRun st).1 < 0xFFFF then (1 : Int) else 0) = 1
  split
  · right; rfl
  · left; rfl

theorem low_loop_run_states : ∀ fuel rem : Nat, ∀ st : LowSt, 0 ≤ st.state →
    (st.flag = 0 ∨ st.flag = 1) →
    ∀ s ∈ (read_low_loop fuel rem st).2.1, 0 ≤ s ∧ s ≤ 63 := by
  intro fuel
  induction fuel with
  | zero =>
    intro rem st _ _ s hs
    cases rem <;> simp [read_low_loop] at hs
  | succ fuel ih =>
    intro rem st h1 h2 s hs
    cases rem with
    | zero => simp [read_low_loop] at hs
    | succ rem =>
      rw [read_low_loop] at hs
      have hnn := lowValue_state_nonneg st h1 h2
      by_cases hc : 255 < (lowValue st).next.state * 4 ∨ rem = 0
      · rw [if_pos hc] at hs
        simp only at hs
        exact ih rem (lowValue st).next hnn (Or.inl rfl) s hs
      · rw [if_neg hc] at hs
        simp only at hs
        push_neg at hc
        by_cases hr : rem < (lowRun (lowValue st).next).1
        · rw [if_pos hr] at hs
          simp only [List.mem_singleton] at hs
          subst hs
          exact ⟨hnn, by omega⟩
        · rw [if_neg hr] at hs
          simp only [List.mem_cons] at hs
          rcases hs with hs | hs
          · subst hs; exact ⟨hnn, by omega⟩
          · exact ih (rem - (lowRun (lowValue st).next).1) _ (by rfl) (lowRun_flag _) s hs

/-- Claim C10: in read_low_coeffs the adaptation state is a non-negative
invariant: the loop starts it at 3; the value-phase update maps a
non-negative state to a non-negative state for every escape ≥ 0 and flag in
0 or 1; the run phase resets it to 0; and at every entry into the run phase
the state lies in [0, 63], so the run prefix width
((state + 8) >> 5) + (state ? clz32 state : 32) - 24 lies in [3, 8] and
every bit-reader width used by the run phase is non-negative. -/
theorem low_state_invariant :
    (∀ bs size, read_low_coeffs bs size = read_low_loop size size ⟨bs, 3, 0⟩) ∧
    (∀ e f s : Int, 0 ≤ e → (f = 0 ∨ f = 1) → 0 ≤ s →
      0 ≤ 120 * (e + f) + s - (120 * s) / 2^8) ∧
    (∀ st : LowSt, (lowRun st).2.state = 0) ∧
    (∀ bs size, ∀ s ∈ (read_low_coeffs bs size).2.1,
      0 ≤ s ∧ s ≤ 63 ∧ 3 ≤ runNbits s ∧ runNbits s ≤ 8) := by
  refine ⟨fun _ _ => rfl, ?_, fun _ => rfl, ?_⟩
  · intro e f s he hf hs
    omega
  · intro bs size s hs
    have := low_loop_run_states size size ⟨bs, 3, 0⟩ (by norm_num) (Or.inl rfl) s hs
    exact ⟨this.1, this.2, (runNbits_range s this.1 this.2).1, (runNbits_range s this.1 this.2).2⟩

/-- Witness for claim C10 at a concrete input: on the all-zero bitstream
with size 3, the run phase is entered with state 2, which the theorem
places in [0, 63] with a prefix width in [3, 8]. -/
theorem low_state_invariant_witness :
    (0 : Int) ≤ 2 ∧ (2 : Int) ≤ 63 ∧ 3 ≤ runNbits 2 ∧ runNbits 2 ≤ 8 :=
  low_state_invariant.2.2.2 zeroBS 3 2 (by decide)

/-! ### Claim C1: the value-phase prefix width of read_high_coeffs -/

theorem highValue_pfx (c d : Int) (nbits length : Nat) (st : HCSt) :
    (highValue c d nbits length st).pfx = none ∨
    (highValue c d nbits length st).pfx = some (minBranchless14 (hcV st.state)) := by
  show (highStep nbits length (hcV st.state) st.bs).1 = none ∨
    (highStep nbits length (hcV st.state) st.bs).1 = some (minBranchless14 (hcV st.state))
  unfold highStep
  dsimp only
  split
  · left; rfl
  · split
    · right; rfl
    · right; rfl

theorem highRun_state (st : HCSt) (r : Nat × HCSt) (h : highRun st = some r) :
    r.2.state = 0 := by
  simp only [highRun] at h
  repeat' split at h
  all_goals cases h
  all_goals rfl

theorem high_loop_trace (c d : Int) (nbits length : Nat) :
    ∀ fuel rem : Nat, ∀ st : HCSt, 0 ≤ st.state →
    ∀ pr ∈ (read_high_loop c d nbits length fuel rem st).2.1,
      0 ≤ pr.1 ∧ ∀ px ∈ pr.2, px = minBranchless14 (hcV pr.1) := by
  intro fuel
  induction fuel with
  | zero =>
    intro rem st _ pr hpr
    cases rem <;> simp [read_high_loop] at hpr
  | succ fuel ih =>
    intro rem st h1 pr hpr
    cases rem with
    | zero => simp [read_high_loop] at hpr
    | succ rem =>
      rw [read_high_loop] at hpr
      have hpfx : ∀ px, px ∈ (highValue c d nbits length st).pfx →
          px = minBranchless14 (hcV st.state) := by
        intro px hpx
        rcases highValue_pfx c d nbits length st with h | h <;> rw [h] at hpx
        · exact absurd hpx (Option.not_mem_none px)
        · exact (Option.some.inj hpx).symm
      by_cases hc : 255 < (highValue c d nbits length st).next.state * 4 ∨ rem = 0
      · rw [if_pos hc] at hpr
        simp only [List.mem_cons] at hpr
        rcases hpr with hpr | hpr
        · subst hpr; exact ⟨h1, hpfx⟩
        · rcases hc with hc | hc
          · exact ih rem _ (by omega) pr hpr
          · subst hc
            have hz : read_high_loop c d nbits length fuel 0
                (highValue c d nbits length st).next
                = ([], [], some (highValue c d nbits length st).next) := by
              cases fuel <;> rfl
            rw [hz] at hpr
            simp at hpr
      · rw [if_neg hc] at hpr
        rcases hrun : highRun (highValue c d nbits length st).next with _ | r
        · rw [hrun] at hpr
          dsimp only at hpr
          simp only [List.mem_singleton] at hpr
          subst hpr; exact ⟨h1, hpfx⟩
        · rw [hrun] at hpr
          dsimp only at hpr
          by_cases hr : rem < r.1
          · rw [if_pos hr] at hpr
            simp only [List.mem_singleton] at hpr
            subst hpr; exact ⟨h1, hpfx⟩
          · rw [if_neg hr] at hpr
            simp only [List.mem_cons] at hpr
            rcases hpr with hpr | hpr
            · subst hpr; exact ⟨h1, hpfx⟩
            · exact ih (rem - r.1) r.2 (by rw [highRun_state _ _ hrun]) pr hpr

/-- Claim C1 (amended): in read_high_coeffs, the adaptation state at the
start of every value phase is non-negative, so as an int64 quantity
(state >> 8) never equals -3 or -2; in the non-escape branch the prefix
width is pfx = min(v, 14), and pfx ≥ 1 holds whenever
((state >> 8) + 3) truncated to uint32 (the actual ff_clz argument) is not
1 - in particular whenever state < 2^40 - 512.  The unamended claim, that
pfx ≥ 1 holds unconditionally, fails: stream-supplied parameters can push
the state past 2^40 (see the counterexample). -/
theorem high_value_pfx_amended (c a d : Int) (size : Nat) (bs : BitStream) :
    ∀ pr ∈ highTrace (read_high_coeffs c a d size bs),
      0 ≤ pr.1 ∧ sar pr.1 8 ≠ -3 ∧ sar pr.1 8 ≠ -2 ∧
      ∀ px ∈ pr.2, px = min (hcV pr.1) 14 ∧ (u32 (sar pr.1 8 + 3) ≠ 1 → 1 ≤ px) := by
  intro pr hpr
  have hmem : 0 ≤ pr.1 ∧ ∀ px ∈ pr.2, px = minBranchless14 (hcV pr.1) := by
    unfold read_high_coeffs highTrace at hpr
    rcases hn : highNbits a with _ | nbits
    · rw [hn] at hpr; simp at hpr
    · rw [hn] at hpr
      dsimp only [Option.map, Option.elim] at hpr
      exact high_loop_trace c d nbits (25 - nbits) size size ⟨bs, 3, 0⟩ (by norm_num) pr hpr
  have hs := hmem.1
  have hsar : 0 ≤ sar pr.1 8 := by simp only [sar]; omega
  refine ⟨hs, by omega, by omega, ?_⟩
  intro px hpx
  have hpx2 := hmem.2 px hpx
  have hrange := hcV_range pr.1
  rw [minBranchless14_eq _ hrange.1 hrange.2] at hpx2
  refine ⟨hpx2, fun hne => ?_⟩
  have := hcV_pos pr.1 hs hne
  omega

/-- Witness for the amended claim C1: setting all parameters to 0 with
a = 0 and size 1 on the all-zero bitstream, the single value phase starts
at state 3 and takes the non-escape branch with pfx = 1. -/
theorem high_value_pfx_amended_witness :
    ((3 : Int), some (1 : Int)) ∈ highTrace (read_high_coeffs 0 0 0 1 zeroBS) ∧
    (0 : Int) ≤ 3 ∧ sar 3 8 ≠ -3 ∧ sar 3 8 ≠ -2 ∧
    ((1 : Int) = min (hcV 3) 14 ∧ (u32 (sar 3 8 + 3) ≠ 1 → 1 ≤ (1 : Int))) := by
  have hm : ((3 : Int), some (1 : Int)) ∈ highTrace (read_high_coeffs 0 0 0 1 zeroBS) := by
    decide
  have h := high_value_pfx_amended 0 0 0 1 zeroBS (3, some 1) hm
  exact ⟨hm, h.1, h.2.1, h.2.2.1, h.2.2.2 1 (by decide)⟩

/-! ### Claim C2: the prefix bit count derivation of read_high_coeffs -/

/-- Claim C2 (amended): for every int32 magnitude parameter, the nbits
derivation of read_high_coeffs equals the closed form highNbitsSpec:
nbits = 1 exactly for the parameters 0 and -1 (not for |parameter| = 1 as
claimed); for a positive parameter a it is 33 - clz32(a) (not
33 - clz32(a - 1)); for a ≤ -2 it is 33 - clz32(|a| - 1); decoding fails
with InvalidData exactly when the count exceeds 16. -/
theorem highNbits_closed (a : Int) (h1 : -2^31 ≤ a) (h2 : a < 2^31) :
    highNbits a = highNbitsSpec a := by
  rcases lt_trichotomy a 0 with ha | ha | ha
  · by_cases ham : a = -1
    · subst ham; decide
    · have hs1 : sar a 31 = -1 := by simp only [sar]; omega
      have hx : xorMask01 a (-1) = -a - 1 := by simp [xorMask01]
      simp only [highNbits, highNbitsSpec, hs1, hx]
      rw [if_neg (by omega : ¬ (0 : Int) ≤ a)]
      rw [if_pos (show wrap32 (0 + (-a - 1) - -1) ≠ 1 by simp only [wrap32]; omega)]
      rw [if_neg (show ¬(a = 0 ∨ a = -1) by omega)]
      have hu : u32 (wrap32 (0 + (-a - 1) - -1) - 1) = a.natAbs - 1 := by
        simp only [wrap32, u32]; omega
      rw [hu, if_neg (by omega : ¬ (0 : Int) ≤ a)]
  · subst ha; decide
  · have hs0 : sar a 31 = 0 := by simp only [sar]; omega
    have hx : xorMask01 a 0 = a := by simp [xorMask01]
    simp only [highNbits, highNbitsSpec, hs0, hx]
    rw [if_pos (by omega : (0 : Int) ≤ a)]
    rw [if_pos (show wrap32 (1 + a - 0) ≠ 1 by simp only [wrap32]; omega)]
    rw [if_neg (show ¬(a = 0 ∨ a = -1) by omega)]
    have hu : u32 (wrap32 (1 + a - 0) - 1) = a.toNat := by
      simp only [wrap32, u32]; omega
    rw [hu, if_pos (by omega : (0 : Int) ≤ a)]

/-- Witness for the amended claim C2 at the parameter 16384 (an AC band
with a = 16384, b = 0 yields this magnitude parameter and nbits = 16). -/
theorem highNbits_closed_witness :
    -(2 : Int)^31 ≤ 16384 ∧ (16384 : Int) < 2^31 ∧
    highNbits 16384 = highNbitsSpec 16384 ∧ highNbits 16384 = some 16 :=
  ⟨by norm_num, by norm_num, highNbits_closed 16384 (by norm_num) (by norm_num), by decide⟩

/-- Counterexample to claim C2 as stated: the stream parameters a = 1,
b = 0 give the magnitude parameter 1 with |1| = 1, yet the decoder derives
nbits = 2, not 1 (the C expression (a >= 0) + (a ^ (a >> 31)) - (a >> 31)
is a + 1, not |a|, for non-negative a). -/
theorem highNbits_counterexample :
    aprime 1 0 = 1 ∧ (1 : Int).natAbs = 1 ∧ highNbits (aprime 1 0) = some 2 ∧
    highNbits (aprime 1 0) ≠ some 1 := by
  refine ⟨by decide, by decide, by decide, by decide⟩

/-! ### Claim C9: the all-zero payload of an a = 0, b = 0 AC band -/

set_option maxRecDepth 8000 in
theorem hv_first (p : Nat) :
    highValue 0 0 1 24 ⟨⟨fun _ => false, p⟩, 3, 0⟩ =
      ⟨some 1, 0, ⟨⟨fun _ => false, p + 1⟩, 3, 0⟩⟩ := by
  have hst : (⟨⟨fun _ => false, p⟩, 3, 0⟩ : HCSt).state = 3 := rfl
  have hbs : (⟨⟨fun _ => false, p⟩, 3, 0⟩ : HCSt).bs = ⟨fun _ => false, p⟩ := rfl
  have hfl : (⟨⟨fun _ => false, p⟩, 3, 0⟩ : HCSt).flag = 0 := rfl
  have hstep : highStep 1 24 (hcV 3) ⟨fun _ => false, p⟩ =
      (some 1, 0, ⟨fun _ => false, p + 1⟩) := rfl
  unfold highValue
  rw [hst, hbs, hfl, hstep]
  dsimp only
  norm_num [highEmit, wrap32, sar, landOne, xorMask01]

set_option maxRecDepth 8000 in
theorem hr_first (p : Nat) :
    highRun ⟨⟨fun _ => false, p⟩, 3, 0⟩ =
      some (0, ⟨⟨fun _ => false, p + 1 + 5⟩, 0, 1⟩) := by
  have hst : (⟨⟨fun _ => false, p⟩, 3, 0⟩ : HCSt).state = 3 := rfl
  have hbs : (⟨⟨fun _ => false, p⟩, 3, 0⟩ : HCSt).bs = ⟨fun _ => false, p⟩ := rfl
  unfold highRun
  rw [hst, hbs]
  rfl

set_option maxRecDepth 8000 in
theorem hv_steady (p : Nat) :
    highValue 0 0 1 24 ⟨⟨fun _ => false, p⟩, 0, 1⟩ =
      ⟨some 1, 0, ⟨⟨fun _ => false, p + 1⟩, 0, 0⟩⟩ := by
  have hst : (⟨⟨fun _ => false, p⟩, 0, 1⟩ : HCSt).state = 0 := rfl
  have hbs : (⟨⟨fun _ => false, p⟩, 0, 1⟩ : HCSt).bs = ⟨fun _ => false, p⟩ := rfl
  have hfl : (⟨⟨fun _ => false, p⟩, 0, 1⟩ : HCSt).flag = 1 := rfl
  have hstep : highStep 1 24 (hcV 0) ⟨fun _ => false, p⟩ =
      (some 1, 0, ⟨fun _ => false, p + 1⟩) := rfl
  unfold highValue
  rw [hst, hbs, hfl, hstep]
  dsimp only
  norm_num [highEmit, wrap32, sar, landOne, xorMask01]

set_option maxRecDepth 8000 in
theorem hr_steady (p : Nat) :
    highRun ⟨⟨fun _ => false, p⟩, 0, 0⟩ =
      some (0, ⟨⟨fun _ => false, p + 1 + 7⟩, 0, 1⟩) := by
  have hst : (⟨⟨fun _ => false, p⟩, 0, 0⟩ : HCSt).state = 0 := rfl
  have hbs : (⟨⟨fun _ => false, p⟩, 0, 0⟩ : HCSt).bs = ⟨fun _ => false, p⟩ := rfl
  unfold highRun
  rw [hst, hbs]
  rfl

theorem high_loop_zero_steady : ∀ n p : Nat,
    (read_high_loop 0 0 1 24 n n ⟨⟨fun _ => false, p⟩, 0, 1⟩).1 =
      List.replicate n 0 := by
  intro n
  induction n with
  | zero => intro p; rfl
  | succ n ih =>
    intro p
    rw [read_high_loop, hv_steady p]
    dsimp only
    by_cases hn : n = 0
    · subst hn
      rw [if_pos (Or.inr rfl)]
      rfl
    · rw [if_neg (by simpa using hn), hr_steady (p + 1)]
      dsimp only
      rw [if_neg (by omega)]
      simp only [Nat.sub_zero, List.replicate, List.nil_append]
      rw [ih (p + 1 + 1 + 7)]

/-- Claim C9: an AC band built from a = 0, b = 0 gets the magnitude
parameter 0, hence nbits = 1 and length = 24, and on a payload of all-zero
bits read_high_coeffs emits exactly size samples, all zero, for every
size ≥ 1. -/
theorem zero_payload_all_zero (size : Nat) (hs : 1 ≤ size) :
    highNbits (aprime 0 0) = some 1 ∧ highLength (aprime 0 0) = some 24 ∧
    highOut (read_high_coeffs 0 (aprime 0 0) 0 size zeroBS) =
      some (List.replicate size 0) := by
  refine ⟨rfl, rfl, ?_⟩
  obtain ⟨m, rfl⟩ : ∃ m, size = m + 1 := ⟨size - 1, by omega⟩
  show some (read_high_loop 0 0 1 24 (m + 1) (m + 1) ⟨zeroBS, 3, 0⟩).1 = _
  rw [show (⟨zeroBS, 3, 0⟩ : HCSt) = ⟨⟨fun _ => false, 0⟩, 3, 0⟩ from rfl]
  rw [read_high_loop, hv_first 0]
  dsimp only
  by_cases hm : m = 0
  · subst hm
    rw [if_pos (Or.inr rfl)]
    rfl
  · rw [if_neg (by simpa using hm), hr_first (0 + 1)]
    dsimp only
    rw [if_neg (by omega)]
    simp only [Nat.sub_zero, List.replicate, List.nil_append]
    rw [high_loop_zero_steady m (0 + 1 + 1 + 5)]

/-- Witness for claim C9 at size 3. -/
theorem zero_payload_all_zero_witness :
    1 ≤ 3 ∧
    (highNbits (aprime 0 0) = some 1 ∧ highLength (aprime 0 0) = some 24 ∧
      highOut (read_high_coeffs 0 (aprime 0 0) 0 3 zeroBS) =
        some (List.replicate 3 0)) :=
  ⟨by norm_num, zero_payload_all_zero 3 (by norm_num)⟩

/-- Counterexample to claim C1 as stated: with band parameters a = 16384
(so nbits = 16, length = 9), c = 0 and d = -8193, the bitstream c1stream
drives the adaptation state to 2^40 - 279 after eight escape-path value
phases, each run phase being skipped; the ninth value phase then takes the
non-escape branch and computes pfx = 0 (because the truncated ff_clz
argument is 1), so (1 << pfx) - 1 is an empty mask and skip_bits receives
the negative width pfx - 1 = -1. -/
theorem high_value_pfx_counterexample :
    ((2^40 - 279 : Int), some (0 : Int)) ∈
      highTrace (read_high_coeffs 0 16384 (-8193) 9 c1stream) ∧
    ¬ (∀ pr ∈ highTrace (read_high_coeffs 0 16384 (-8193) 9 c1stream),
        ∀ px ∈ pr.2, 1 ≤ px) := by
  constructor
  · decide
  · intro h
    exact absurd (h (2^40 - 279, some 0) (by decide) 0 (by decide)) (by decide)


/-! ### Claim C3: the symmetric boundary extension of filter -/

theorem wr_miss (t : Int → Int) (d s z : Int) (h : z ≠ d) : wr t d s z = t z := by
  simp [wr, Function.update_apply, h]

theorem wr_hit (t : Int → Int) (d s z : Int) (h : z = d) : wr t d s z = t s := by
  subst h; simp [wr]

theorem fsi_low (dest : Nat → Int) (hsize : Nat) (g : Int → Int) (z : Int)
    (h : 4 ≤ z ∧ z < 4 + (hsize : Int)) :
    filterScratchInit dest hsize g z = dest (z - 4).toNat := by
  simp only [filterScratchInit]
  rw [if_pos h]

theorem fsi_high (dest : Nat → Int) (hsize : Nat) (g : Int → Int) (z : Int)
    (h1 : ¬(4 ≤ z ∧ z < 4 + (hsize : Int)))
    (h2 : (hsize : Int) + 12 ≤ z ∧ z < 2 * (hsize : Int) + 12) :
    filterScratchInit dest hsize g z = dest (z - 12).toNat := by
  simp only [filterScratchInit]
  rw [if_neg h1, if_pos h2]

/-- Claim C3 (amended): the boundary extension written by filter is,
for i in 1..4: low[-i] = low[i] and high[hsize-1+i] = high[hsize-1-i]
(that is, high[hsize-2-i+shift] with shift = 1) as claimed, but on the
right margin of the low half the source writes
low[hsize-1+i] = low[hsize-i], not low[hsize-1-i]. -/
theorem filter_extension_amended (dest : Nat → Int) (g : Int → Int)
    (hsize : Nat) (hh : 5 ≤ hsize) (i : Nat) (h1 : 1 ≤ i) (h4 : i ≤ 4) :
    lowExt dest hsize g (-(i : Int)) = dest i ∧
    lowExt dest hsize g ((hsize : Int) - 1 + i) = dest (hsize - i) ∧
    highExt dest hsize g ((hsize : Int) - 1 + i) =
      dest (hsize + (hsize - 1 - i)) := by
  interval_cases i <;> refine ⟨?_, ?_, ?_⟩
  · simp only [lowExt, highExt, filterExtend]
    rw [wr_miss, wr_miss, wr_miss, wr_miss, wr_miss, wr_miss, wr_miss, wr_miss, wr_miss, wr_miss, wr_miss, wr_miss, wr_miss, wr_miss, wr_miss, wr_hit, fsi_low]
    · exact congrArg dest (by omega)
    all_goals omega
  · simp only [lowExt, highExt, filterExtend]
    rw [wr_miss, wr_miss, wr_miss, wr_miss, wr_miss, wr_miss, wr_miss, wr_miss, wr_miss, wr_miss, wr_miss, wr_miss, wr_miss, wr_miss, wr_hit, wr_miss, fsi_low]
    · exact congrArg dest (by omega)
    all_goals omega
  · simp only [lowExt, highExt, filterExtend]
    rw [wr_miss, wr_miss, wr_miss, wr_miss, wr_miss, wr_miss, wr_miss, wr_miss, wr_miss, wr_miss, wr_miss, wr_miss, wr_hit, wr_miss, wr_miss, wr_miss, fsi_high]
    · exact congrArg dest (by omega)
    all_goals omega
  · simp only [lowExt, highExt, filterExtend]
    rw [wr_miss, wr_miss, wr_miss, wr_miss, wr_miss, wr_miss, wr_miss, wr_miss, wr_miss, wr_miss, wr_miss, wr_hit, wr_miss, wr_miss, wr_miss, wr_miss, fsi_low]
    · exact congrArg dest (by omega)
    all_goals omega
  · simp only [lowExt, highExt, filterExtend]
    rw [wr_miss, wr_miss, wr_miss, wr_miss, wr_miss, wr_miss, wr_miss, wr_miss, wr_miss, wr_miss, wr_hit, wr_miss, wr_miss, wr_miss, wr_miss, wr_miss, fsi_low]
    · exact congrArg dest (by omega)
    all_goals omega
  · simp only [lowExt, highExt, filterExtend]
    rw [wr_miss, wr_miss, wr_miss, wr_miss, wr_miss, wr_miss, wr_miss, wr_miss, wr_hit, wr_miss, wr_miss, wr_miss, wr_miss, wr_miss, wr_miss, wr_miss, fsi_high]
    · exact congrArg dest (by omega)
    all_goals omega
  · simp only [lowExt, highExt, filterExtend]
    rw [wr_miss, wr_miss, wr_miss, wr_miss, wr_miss, wr_miss, wr_miss, wr_hit, wr_miss, wr_miss, wr_miss, wr_miss, wr_miss, wr_miss, wr_miss, wr_miss, fsi_low]
    · exact congrArg dest (by omega)
    all_goals omega
  · simp only [lowExt, highExt, filterExtend]
    rw [wr_miss, wr_miss, wr_miss, wr_miss, wr_miss, wr_miss, wr_hit, wr_miss, wr_miss, wr_miss, wr_miss, wr_miss, wr_miss, wr_miss, wr_miss, wr_miss, fsi_low]
    · exact congrArg dest (by omega)
    all_goals omega
  · simp only [lowExt, highExt, filterExtend]
    rw [wr_miss, wr_miss, wr_miss, wr_miss, wr_hit, wr_miss, wr_miss, wr_miss, wr_miss, wr_miss, wr_miss, wr_miss, wr_miss, wr_miss, wr_miss, wr_miss, fsi_high]
    · exact congrArg dest (by omega)
    all_goals omega
  · simp only [lowExt, highExt, filterExtend]
    rw [wr_miss, wr_miss, wr_miss, wr_hit, wr_miss, wr_miss, wr_miss, wr_miss, wr_miss, wr_miss, wr_miss, wr_miss, wr_miss, wr_miss, wr_miss, wr_miss, fsi_low]
    · exact congrArg dest (by omega)
    all_goals omega
  · simp only [lowExt, highExt, filterExtend]
    rw [wr_miss, wr_miss, wr_hit, wr_miss, wr_miss, wr_miss, wr_miss, wr_miss, wr_miss, wr_miss, wr_miss, wr_miss, wr_miss, wr_miss, wr_miss, wr_miss, fsi_low]
    · exact congrArg dest (by omega)
    all_goals omega
  · simp only [lowExt, highExt, filterExtend]
    rw [wr_hit, wr_miss, wr_miss, wr_miss, wr_miss, wr_miss, wr_miss, wr_miss, wr_miss, wr_miss, wr_miss, wr_miss, wr_miss, wr_miss, wr_miss, wr_miss, fsi_high]
    · exact congrArg dest (by omega)
    all_goals omega


/-- Witness for the amended claim C3 at hsize = 5, i = 2 on the identity
input. -/
theorem filter_extension_amended_witness :
    lowExt (fun k => (k : Int)) 5 (fun _ => 0) (-(2 : Int)) = (fun k => (k : Int)) 2 ∧
    lowExt (fun k => (k : Int)) 5 (fun _ => 0) ((5 : Int) - 1 + 2) = (fun k => (k : Int)) (5 - 2) ∧
    highExt (fun k => (k : Int)) 5 (fun _ => 0) ((5 : Int) - 1 + 2) =
      (fun k => (k : Int)) (5 + (5 - 1 - 2)) :=
  filter_extension_amended (fun k => (k : Int)) (fun _ => 0) 5 (by norm_num) 2
    (by norm_num) (by norm_num)

/-- Counterexample to claim C3 as stated: with hsize = 8 and the identity
input dest k = k, the low-half right margin gives low[hsize - 1 + 1] =
low[8] = 7 = low[hsize - 1], not low[hsize - 1 - 1] = 6 as claimed. -/
theorem filter_extension_counterexample :
    lowExt (fun k => (k : Int)) 8 (fun _ => 0) ((8 : Int) - 1 + 1) = 7 ∧
    (fun k => (k : Int)) (8 - 1 - 1) = 6 ∧ (7 : Int) ≠ 6 := by
  refine ⟨by decide, by decide, by decide⟩

/-! ### Claim C4: monotonicity of the chroma postprocess map -/

/-- Claim C4 (amended): for every depth in [8, 15], the per-sample chroma
map s to ((s + (1 << (depth-1))) << (16 - depth)) truncated to uint16 is
monotone on samples in [-(2^(depth-1)), 2^(depth-1) - 1], where the shifted
value stays below 2^16; outside that range the uint16 truncation wraps and
monotonicity fails (see the counterexample). -/
theorem chroma_monotone_amended (depth : Nat) (hd1 : 8 ≤ depth) (hd2 : depth ≤ 15)
    (s1 s2 : Int) (hlo : -(2^(depth-1)) ≤ s1) (hlt : s1 < s2)
    (hhi : s2 ≤ 2^(depth-1) - 1) :
    chromaSample depth s1 ≤ chromaSample depth s2 := by
  have hab : (2:Int)^(depth-1) * 2^(16-depth) = 2^15 := by
    rw [← pow_add]; congr 1; omega
  have hApos : (0:Int) < 2^(depth-1) := by positivity
  have hBpos : (0:Int) < 2^(16-depth) := by positivity
  have h1 : (0:Int) ≤ (2^(depth-1) + s1) * 2^(16-depth) :=
    mul_nonneg (by omega) hBpos.le
  have hmono : (2^(depth-1) + s1) * 2^(16-depth) ≤ (2^(depth-1) + s2) * 2^(16-depth) :=
    mul_le_mul_of_nonneg_right (by omega) hBpos.le
  have h2 : (2^(depth-1) + s2) * 2^(16-depth) ≤ 2^16 - 2^(16-depth) := by
    calc (2^(depth-1) + s2) * 2^(16-depth)
        ≤ (2 * 2^(depth-1) - 1) * 2^(16-depth) :=
          mul_le_mul_of_nonneg_right (by omega) hBpos.le
      _ = 2 * (2^(depth-1) * 2^(16-depth)) - 2^(16-depth) := by ring
      _ = 2^16 - 2^(16-depth) := by rw [hab]; norm_num
  unfold chromaSample
  have e1 : ((2^(depth-1) + s1) * 2^(16-depth)) % 2^16
      = (2^(depth-1) + s1) * 2^(16-depth) := Int.emod_eq_of_lt h1 (by omega)
  have e2 : ((2^(depth-1) + s2) * 2^(16-depth)) % 2^16
      = (2^(depth-1) + s2) * 2^(16-depth) := Int.emod_eq_of_lt (by omega) (by omega)
  rw [e1, e2]
  exact Int.toNat_le_toNat hmono

/-- Witness for the amended claim C4 at depth 8, s1 = -5, s2 = 6. -/
theorem chroma_monotone_amended_witness :
    chromaSample 8 (-5) ≤ chromaSample 8 6 :=
  chroma_monotone_amended 8 (by norm_num) (by norm_num) (-5) 6 (by norm_num)
    (by norm_num) (by norm_num)

/-- Counterexample to claim C4 as stated: at depth 8 the int16 samples 0 and
128 satisfy 0 < 128, yet the chroma map sends 0 to 0x8000 and 128 to 0 (the
shifted value 0x10000 wraps in the uint16 store), so monotonicity fails on
the full int16 range. -/
theorem chroma_monotone_counterexample :
    (0 : Int) < 128 ∧ chromaSample 8 0 = 32768 ∧ chromaSample 8 128 = 0 ∧
    ¬ chromaSample 8 0 ≤ chromaSample 8 128 := by
  refine ⟨by decide, by decide, by decide, by decide⟩

/-! ### Claim C5: the grayscale path of pixlet_decode_frame -/

/-- Claim C5 (amended): when AV_CODEC_FLAG_GRAY is set the plane loop of
pixlet_decode_frame decodes only plane 0 (it breaks after the first
iteration), but postprocess_chroma still runs over planes 1 and 2: inside
the (w/2) by (h/2) rectangle every chroma sample s is replaced by
((s + 2^(depth-1)) << (16 - depth)) mod 2^16, so the chroma buffers are
rewritten, not left untouched. -/
theorem gray_frame_chroma_amended (decodePlane : Fin 3 → Planes → Planes)
    (fr : Planes) (depth w2 h2 : Nat) :
    planeLoop true decodePlane fr = decodePlane 0 fr ∧
    ∀ j i, j < h2 → i < w2 →
      (frameChroma true decodePlane fr depth w2 h2).1 j i
        = chromaSample depth ((decodePlane 0 fr).p1 j i) ∧
      (frameChroma true decodePlane fr depth w2 h2).2 j i
        = chromaSample depth ((decodePlane 0 fr).p2 j i) := by
  refine ⟨rfl, fun j i hj hi => ⟨?_, ?_⟩⟩
  · show postprocess_chroma_plane depth w2 h2 (planeLoop true decodePlane fr).p1 j i = _
    simp [postprocess_chroma_plane, hj, hi, planeLoop]
  · show postprocess_chroma_plane depth w2 h2 (planeLoop true decodePlane fr).p2 j i = _
    simp [postprocess_chroma_plane, hj, hi, planeLoop]

/-- Witness for the amended claim C5: a grayscale decode with an identity
decode_plane over 1 by 1 chroma planes holding 0 produces chroma sample
0x8000 through the still-running postprocess. -/
theorem gray_frame_chroma_amended_witness :
    planeLoop true (fun _ p => p) ⟨fun _ _ => 0, fun _ _ => 0, fun _ _ => 0⟩
      = (fun _ p => p : Fin 3 → Planes → Planes) 0
          ⟨fun _ _ => 0, fun _ _ => 0, fun _ _ => 0⟩ ∧
    (frameChroma true (fun _ p => p)
        ⟨fun _ _ => 0, fun _ _ => 0, fun _ _ => 0⟩ 8 1 1).1 0 0
      = chromaSample 8 0 :=
  ⟨(gray_frame_chroma_amended (fun _ p => p) _ 8 1 1).1,
   ((gray_frame_chroma_amended (fun _ p => p)
      ⟨fun _ _ => 0, fun _ _ => 0, fun _ _ => 0⟩ 8 1 1).2 0 0
      (by norm_num) (by norm_num)).1⟩

/-- Counterexample to claim C5 as stated: under the grayscale flag, with a
decode_plane that leaves the chroma planes untouched and both chroma planes
holding the int16 sample 0 (uint16 bit pattern 0), the decoded frame holds
32768 in plane 1 at (0,0) after the unconditional postprocess_chroma call,
so the chroma buffers do not keep their previous contents. -/
theorem gray_frame_chroma_counterexample :
    (frameChroma true (fun _ p => p)
        ⟨fun _ _ => 0, fun _ _ => 0, fun _ _ => 0⟩ 8 1 1).1 0 0 = 32768 ∧
    toU16 0 = 0 ∧ (32768 : Nat) ≠ 0 := by
  refine ⟨by decide, by decide, by decide⟩

/-! ### Claim C8: the header checks of pixlet_decode_frame -/

theorem getBE32_snd (data : List Nat) (p : Nat) (h : p + 4 ≤ data.length) :
    (getBE32 ⟨data, p⟩).2 = ⟨data, p + 4⟩ := by
  simp only [getBE32, bytesLeft]
  rw [if_pos (by omega)]

theorem getLE32_snd (data : List Nat) (p : Nat) (h : p + 4 ≤ data.length) :
    (getLE32 ⟨data, p⟩).2 = ⟨data, p + 4⟩ := by
  simp only [getLE32, bytesLeft]
  rw [if_pos (by omega)]

theorem skipBytes_eq (data : List Nat) (p n : Nat) (h : p + n ≤ data.length) :
    skipBytes ⟨data, p⟩ n = ⟨data, p + n⟩ := by
  simp only [skipBytes, ByteCtx.mk.injEq]
  refine ⟨trivial, by omega⟩

/-- Claim C8: pixlet_decode_frame fails with AVERROR_INVALIDDATA before any
plane is decoded whenever the declared packet size is at most 44 or exceeds
the buffer, the wavelet-levels field differs from 4, or the sample-depth
field lies outside [8, 15]. -/
theorem pixlet_header_validation (data : List Nat)
    (h : be32At data 0 ≤ 44 ∨ data.length < be32At data 0 ∨
         be32At data 28 ≠ 4 ∨ be32At data 32 < 8 ∨ 15 < be32At data 32) :
    pixlet_parse_header data = .error () := by
  have hb0 : be32At data 0 = (getBE32 ⟨data, 0⟩).1 := rfl
  have hb28 : be32At data 28 = (getBE32 ⟨data, 28⟩).1 := rfl
  have hb32 : be32At data 32 = (getBE32 ⟨data, 32⟩).1 := rfl
  rw [hb0, hb28, hb32] at h
  simp only [pixlet_parse_header]
  by_cases hc : (getBE32 ⟨data, 0⟩).1 ≤ 44 ∨
      bytesLeft (getBE32 ⟨data, 0⟩).2 < (getBE32 ⟨data, 0⟩).1 - 4
  · rw [if_pos hc]
  · rw [if_neg hc]
    push_neg at hc
    obtain ⟨hc1, hc2⟩ := hc
    have hlen : 45 ≤ data.length := by
      rcases Nat.lt_or_ge data.length 4 with h4 | h4
      · exfalso
        have hz : (getBE32 ⟨data, 0⟩).1 = 0 := by
          simp only [getBE32, bytesLeft]
          rw [if_neg (by omega)]
        omega
      · have h2 : (getBE32 ⟨data, 0⟩).2 = ⟨data, 4⟩ := getBE32_snd data 0 (by omega)
        rw [h2] at hc2
        simp only [bytesLeft] at hc2
        omega
    rw [getBE32_snd data 0 (by omega), getLE32_snd data 4 (by omega),
        skipBytes_eq data 8 4 (by omega)]
    by_cases h12 : (getBE32 ⟨data, 12⟩).1 ≠ 1
    · rw [if_pos h12]
    · rw [if_neg h12, getBE32_snd data 12 (by omega), skipBytes_eq data 16 4 (by omega),
          getBE32_snd data 20 (by omega), getBE32_snd data 24 (by omega)]
      by_cases h28 : (getBE32 ⟨data, 28⟩).1 ≠ 4
      · rw [if_pos h28]
      · rw [if_neg h28, getBE32_snd data 28 (by omega)]
        have hdepth : (getBE32 ⟨data, 32⟩).1 < 8 ∨ 15 < (getBE32 ⟨data, 32⟩).1 := by
          rcases h with h | h | h | h | h
          · omega
          · exfalso
            have h2 : (getBE32 ⟨data, 0⟩).2 = ⟨data, 4⟩ := getBE32_snd data 0 (by omega)
            rw [h2] at hc2
            simp only [bytesLeft] at hc2
            omega
          · exact absurd h h28
          · exact Or.inl h
          · exact Or.inr h
        rw [if_pos hdepth]

/-- Witness for claim C8: a 60-byte packet declaring size 50 and levels 3
is rejected. -/
theorem pixlet_header_validation_witness :
    (be32At ([0,0,0,50, 1,0,0,0, 0,0,0,0, 0,0,0,1, 0,0,0,0, 0,0,0,32,
        0,0,0,32, 0,0,0,3, 0,0,0,8] ++ List.replicate 24 0) 28 ≠ 4) ∧
    pixlet_parse_header ([0,0,0,50, 1,0,0,0, 0,0,0,0, 0,0,0,1, 0,0,0,0,
        0,0,0,32, 0,0,0,32, 0,0,0,3, 0,0,0,8] ++ List.replicate 24 0)
      = .error () :=
  ⟨by decide,
   pixlet_header_validation _ (by right; right; left; decide)⟩

/-! ### Claim C6: lowpass_prediction computes the 2-D prefix sum mod 2^16 -/

theorem wrap16_add_left (a b : Int) : wrap16 (wrap16 a + b) = wrap16 (a + b) := by
  simp only [wrap16]; omega

theorem wrap16_add_right (a b : Int) : wrap16 (a + wrap16 b) = wrap16 (a + b) := by
  simp only [wrap16]; omega

theorem sum_emod_congr (s : Finset ℕ) (f g : ℕ → Int)
    (h : ∀ x ∈ s, f x % 2^16 = g x % 2^16) :
    (∑ x ∈ s, f x) % 2^16 = (∑ x ∈ s, g x) % 2^16 := by
  classical
  induction s using Finset.induction with
  | empty => simp
  | insert hx ih =>
    rename_i a s
    rw [Finset.sum_insert hx, Finset.sum_insert hx]
    have h1 := h a (Finset.mem_insert_self a s)
    have h2 : (∑ x ∈ s, f x) % 2^16 = (∑ x ∈ s, g x) % 2^16 :=
      ih fun x hxs => h x (Finset.mem_insert_of_mem hxs)
    omega

theorem lpInner_spec : ∀ (f j : Nat) (pred dst : Nat → Int), 1 ≤ j →
    (∀ q, q < j ∨ j + f ≤ q →
      (lpInner f j pred dst).1 q = pred q ∧ (lpInner f j pred dst).2 q = dst q) ∧
    (∀ q, j ≤ q → q < j + f →
      (lpInner f j pred dst).1 q = wrap16 (pred q + dst q) ∧
      (lpInner f j pred dst).2 q
        = wrap16 (wrap16 (pred q + dst q) + (lpInner f j pred dst).2 (q - 1))) := by
  intro f
  induction f with
  | zero =>
    intro j pred dst hj
    refine ⟨fun q _ => ⟨rfl, rfl⟩, fun q hq1 hq2 => absurd hq2 (by omega)⟩
  | succ f ih =>
    intro j pred dst hj
    have hstep : lpInner (f+1) j pred dst
        = lpInner f (j+1) (Function.update pred j (wrap16 (pred j + dst j)))
            (Function.update dst j
              (wrap16 (wrap16 (pred j + dst j) + dst (j - 1)))) := by
      show lpInner f (j+1) (Function.update pred j (wrap16 (pred j + dst j)))
          (Function.update (Function.update dst j (wrap16 (pred j + dst j))) j
            (wrap16 ((Function.update dst j (wrap16 (pred j + dst j))) j
              + (Function.update dst j (wrap16 (pred j + dst j))) (j - 1)))) = _
      rw [Function.update_same, Function.update_noteq (show j - 1 ≠ j by omega),
          Function.update_idem]
    obtain ⟨IH1, IH2⟩ :=
      ih (j+1) (Function.update pred j (wrap16 (pred j + dst j)))
        (Function.update dst j (wrap16 (wrap16 (pred j + dst j) + dst (j - 1))))
        (by omega)
    rw [hstep]
    constructor
    · intro q hq
      have h1 := IH1 q (by omega)
      have hpq : Function.update pred j (wrap16 (pred j + dst j)) q = pred q :=
        Function.update_noteq (by omega) _ _
      have hdq : Function.update dst j
          (wrap16 (wrap16 (pred j + dst j) + dst (j - 1))) q = dst q :=
        Function.update_noteq (by omega) _ _
      exact ⟨h1.1.trans hpq, h1.2.trans hdq⟩
    · intro q hq1 hq2
      rcases Nat.eq_or_lt_of_le hq1 with heq | hgt
      · subst heq
        have h1 := IH1 j (by omega)
        have h0 := IH1 (j - 1) (by omega)
        constructor
        · rw [h1.1, Function.update_same]
        · rw [h1.2, h0.2, Function.update_same,
            Function.update_noteq (show j - 1 ≠ j by omega)]
      · have h2 := IH2 q (by omega) (by omega)
        have hpq : Function.update pred j (wrap16 (pred j + dst j)) q = pred q :=
          Function.update_noteq (by omega) _ _
        have hdq : Function.update dst j
            (wrap16 (wrap16 (pred j + dst j) + dst (j - 1))) q = dst q :=
          Function.update_noteq (by omega) _ _
        refine ⟨?_, ?_⟩
        · rw [h2.1, hpq, hdq]
        · rw [h2.2, hpq, hdq]

theorem lpRow_eq (width : Nat) (pred dst : Nat → Int) :
    lpRow width pred dst
      = lpInner (width - 1) 1
          (Function.update pred 0 (wrap16 (pred 0 + dst 0)))
          (Function.update dst 0 (wrap16 (pred 0 + dst 0))) := rfl

theorem lpRow_pred (width : Nat) (pred dst : Nat → Int) (q : Nat) (hq : q < width) :
    (lpRow width pred dst).1 q = wrap16 (pred q + dst q) := by
  rw [lpRow_eq]
  obtain ⟨IH1, IH2⟩ := lpInner_spec (width - 1) 1
    (Function.update pred 0 (wrap16 (pred 0 + dst 0)))
    (Function.update dst 0 (wrap16 (pred 0 + dst 0))) (by omega)
  rcases Nat.eq_zero_or_pos q with rfl | hq1
  · rw [(IH1 0 (by omega)).1, Function.update_same]
  · rw [(IH2 q (by omega) (by omega)).1,
      Function.update_noteq (show q ≠ 0 by omega),
      Function.update_noteq (show q ≠ 0 by omega)]

theorem lpRow_dst (width : Nat) (pred dst : Nat → Int) :
    ∀ q, q < width →
      (lpRow width pred dst).2 q
        = wrap16 (∑ t ∈ Finset.range (q+1), (pred t + dst t)) := by
  intro q
  induction q with
  | zero =>
    intro hq
    rw [lpRow_eq]
    obtain ⟨IH1, _⟩ := lpInner_spec (width - 1) 1
      (Function.update pred 0 (wrap16 (pred 0 + dst 0)))
      (Function.update dst 0 (wrap16 (pred 0 + dst 0))) (by omega)
    rw [(IH1 0 (by omega)).2, Function.update_same, Finset.sum_range_one]
  | succ q ihq =>
    intro hq
    have hrec := ihq (by omega)
    rw [lpRow_eq] at hrec ⊢
    obtain ⟨IH1, IH2⟩ := lpInner_spec (width - 1) 1
      (Function.update pred 0 (wrap16 (pred 0 + dst 0)))
      (Function.update dst 0 (wrap16 (pred 0 + dst 0))) (by omega)
    have h2 := (IH2 (q+1) (by omega) (by omega)).2
    rw [Function.update_noteq (show q + 1 ≠ 0 by omega),
        Function.update_noteq (show q + 1 ≠ 0 by omega)] at h2
    have hq1 : q + 1 - 1 = q := by omega
    rw [h2, hq1, hrec, wrap16_add_left, wrap16_add_right]
    refine wrap16_congr ?_
    conv_rhs => rw [Finset.sum_range_succ]
    omega

theorem lpRows_lt (width : Nat) :
    ∀ (f i : Nat) (pred : Nat → Int) (dst : Nat → Nat → Int) (a b : Nat),
      a < i → lpRows width f i pred dst a b = dst a b := by
  intro f
  induction f with
  | zero => intro i pred dst a b _; rfl
  | succ f ih =>
    intro i pred dst a b ha
    show lpRows width f (i+1) _ (Function.update dst i _) a b = dst a b
    rw [ih (i+1) _ _ a b (by omega),
        Function.update_noteq (show a ≠ i by omega)]

theorem lpRows_spec (width : Nat) :
    ∀ (f i : Nat) (pred : Nat → Int) (P : Nat → Int) (dst : Nat → Nat → Int),
      (∀ b, b < width → pred b = wrap16 (P b)) →
      ∀ a b, i ≤ a → a < i + f → b < width →
        lpRows width f i pred dst a b
          = wrap16 (∑ x ∈ Finset.range (b+1),
              (P x + ∑ t ∈ Finset.Ico i (a+1), dst t x)) := by
  intro f
  induction f with
  | zero => intro i pred P dst _ a b ha1 ha2 _; omega
  | succ f ih =>
    intro i pred P dst hpred a b ha1 ha2 hb
    have hrow : lpRows width (f+1) i pred dst
        = lpRows width f (i+1) (lpRow width pred (dst i)).1
            (Function.update dst i (lpRow width pred (dst i)).2) := rfl
    have hpred1 : ∀ c, c < width →
        (lpRow width pred (dst i)).1 c = wrap16 (P c + dst i c) := by
      intro c hc
      rw [lpRow_pred width pred (dst i) c hc, hpred c hc, wrap16_add_left]
    rcases Nat.eq_or_lt_of_le ha1 with heq | hgt
    · subst heq
      rw [hrow, lpRows_lt width f (i+1) _ _ i b (by omega),
          Function.update_same,
          lpRow_dst width pred (dst i) b hb]
      refine wrap16_congr ?_
      refine sum_emod_congr _ _ _ ?_
      intro x hx
      have hxw : x < width := by
        have := Finset.mem_range.mp hx; omega
      rw [hpred x hxw]
      have hone : ∑ t ∈ Finset.Ico i (i+1), dst t x = dst i x := by
        rw [Nat.Ico_succ_singleton, Finset.sum_singleton]
      rw [hone]
      have := wrap16_emod (P x)
      omega
    · rw [hrow,
          ih (i+1) (lpRow width pred (dst i)).1 (fun x => P x + dst i x)
            (Function.update dst i (lpRow width pred (dst i)).2) hpred1
            a b (by omega) (by omega) hb]
      refine wrap16_congr ?_
      refine sum_emod_congr _ _ _ ?_
      intro x hx
      have hupd : ∀ t ∈ Finset.Ico (i+1) (a+1),
          Function.update dst i (lpRow width pred (dst i)).2 t x = dst t x := by
        intro t ht
        have := Finset.mem_Ico.mp ht
        rw [Function.update_noteq (show t ≠ i by omega)]
      rw [Finset.sum_congr rfl hupd]
      have hsplit : ∑ t ∈ Finset.Ico i (a+1), dst t x
          = dst i x + ∑ t ∈ Finset.Ico (i+1) (a+1), dst t x :=
        Finset.sum_eq_sum_Ico_succ_bot (by omega) _
      rw [hsplit]
      ring_nf

/-- Claim C6: for every DC band of width w >= 1 and height h >= 1 (stride >= w
so rows do not alias), lowpass_prediction transforms the residual array r into
its 2-D prefix sum in wrap-around int16 arithmetic: the output sample at (i, j)
equals the int16 truncation of the sum of r over all (a, b) with a <= i and
b <= j. -/
theorem lowpass_prediction_prefix_sum (r : Nat → Nat → Int) (w h i j : Nat)
    (hi : i < h) (hj : j < w) :
    lowpass_prediction r w h i j
      = wrap16 (∑ a ∈ Finset.range (i+1), ∑ b ∈ Finset.range (j+1), r a b) := by
  have hz : ∀ b, b < w → (fun _ : Nat => (0 : Int)) b = wrap16 (0 : Int) := by
    intro b _; norm_num [wrap16]
  have hmain := lpRows_spec w h 0 (fun _ => 0) (fun _ => 0) r hz i j
    (by omega) (by omega) hj
  show lpRows w h 0 (fun _ => 0) r i j = _
  rw [hmain]
  congr 1
  rw [← Finset.range_eq_Ico]
  simp only [zero_add]
  exact Finset.sum_comm

/-- Witness for claim C6: the 2 x 2 residual image (0 1 / 10 11) accumulates
to 22 at the bottom-right corner. -/
theorem lowpass_prediction_prefix_sum_witness :
    lowpass_prediction (fun a b => 10 * (a : Int) + b) 2 2 1 1 = 22 := by
  have h := lowpass_prediction_prefix_sum (fun a b => 10 * (a : Int) + b) 2 2 1 1
    (by decide) (by decide)
  rw [h]
  decide

end Pixlet
